import Mathlib

/-!
Shallow embedding of the synkit parser toolkit core: the generated span type,
the JSONL token set, chunk-boundary detection, the generated token stream
(cursor operations and delimiter extraction), the incremental buffer, the
recursion guard, and the streaming parser task, together with theorems about
the specified properties.
-/

namespace Synkit

/-! ### Span (generated by `parser_kit!`, src/macros/src/parser_kit.rs) -/

/-- Raw byte span with start and end offsets.  The Rust field `end` is a Lean
keyword, so it is named `stop` here. -/
structure RawSpan where
  start : Nat
  stop : Nat
deriving DecidableEq, Repr

/-- Source location span, either known or synthetic (call-site). -/
inductive Span where
  | callSite
  | known (s : RawSpan)
deriving DecidableEq, Repr

def Span.new (start stop : Nat) : Span := .known ⟨start, stop⟩

def Span.call_site : Span := .callSite

/-- `len`: saturating subtraction (Nat subtraction saturates at 0). -/
def Span.len : Span → Nat
  | .known s => s.stop - s.start
  | .callSite => 0

def Span.raw : Span → RawSpan
  | .known s => s
  | .callSite => ⟨0, 0⟩

/-- `SpanLike::start` for the generated span: `self.raw().start`. -/
def Span.start (s : Span) : Nat := s.raw.start

/-- `SpanLike::end` for the generated span: `self.raw().end`. -/
def Span.stop (s : Span) : Nat := s.raw.stop

/-- The generated inherent `Span::join`, with its call-site handling. -/
def Span.join : Span → Span → Span
  | .known a, .known b => Span.new (min a.start b.start) (max a.stop b.stop)
  | .known s, _ => .known s
  | _, .known s => .known s
  | _, _ => .callSite

/-! ### Tokens of the JSONL example (src/examples/jsonl-parser/src/lib.rs) -/

inductive Token where
  | space
  | tab
  | newline
  | lbrace
  | rbrace
  | lbracket
  | rbracket
  | colon
  | comma
  | null
  | true
  | false
  | string (s : String)
  | number (s : String)
deriving DecidableEq, Repr

/-- A value with associated source span (generated `Spanned<T>`). -/
structure Spanned (T : Type) where
  span : Span
  value : T
deriving DecidableEq, Repr

/-! ### Chunk boundary protocol (src/core/src/async_stream.rs, trait `ChunkBoundary`) -/

/-! Two's-complement 32-bit arithmetic: the scan's depth accumulator is an
`i32`, so its addition wraps modulo `2^32` in a release build (a debug build
panics when the sum leaves the `i32` range). -/

/-- `2 ^ 32`, the modulus of `i32` arithmetic. -/
def I32_MOD : Int := 4294967296

/-- `2 ^ 31`, the magnitude of the least `i32`. -/
def I32_HALF : Int := 2147483648

/-- Normalise an integer into the `i32` range `[-2^31, 2^31)`: `x + y` on
`i32` operands yields `wrap32 (x + y)` under release (wrapping) semantics. -/
def wrap32 (x : Int) : Int := (x + I32_HALF) % I32_MOD - I32_HALF

lemma wrap32_bounds (x : Int) : -I32_HALF ≤ wrap32 x ∧ wrap32 x < I32_HALF := by
  unfold wrap32 I32_MOD I32_HALF
  omega

lemma wrap32_eq_of_bounds (x : Int) (h1 : -I32_HALF ≤ x) (h2 : x < I32_HALF) :
    wrap32 x = x := by
  unfold wrap32 I32_MOD I32_HALF at *
  omega

lemma wrap32_add_left (x y : Int) : wrap32 (wrap32 x + y) = wrap32 (x + y) := by
  unfold wrap32 I32_MOD I32_HALF
  omega

/-- The three user predicates of the `ChunkBoundary` trait; `depth_delta`
returns an `i32`, which the range constraint records. -/
structure ChunkBoundaryImpl (Tok : Type) where
  is_boundary_token : Tok → Bool
  depth_delta : Tok → Int
  is_ignorable : Tok → Bool
  depth_delta_i32 : ∀ t, -I32_HALF ≤ depth_delta t ∧ depth_delta t < I32_HALF

/-- The loop body of `ChunkBoundary::find_boundary`: iterate with the
original index `i` and the running `i32` depth (`depth += delta` wraps in a
release build). -/
def findBoundaryFrom (C : ChunkBoundaryImpl Tok) : List Tok → Nat → Int → Option Nat
  | [], _, _ => none
  | t :: rest, i, depth =>
    let d := wrap32 (depth + C.depth_delta t)
    if d = 0 ∧ C.is_boundary_token t = true then some (i + 1)
    else findBoundaryFrom C rest (i + 1) d

/-- `ChunkBoundary::find_boundary(tokens, start)`: scan from `start` with depth
initialised to 0; `enumerate().skip(start)` keeps original indices. -/
def find_boundary (C : ChunkBoundaryImpl Tok) (tokens : List Tok) (start : Nat) : Option Nat :=
  findBoundaryFrom C (tokens.drop start) start 0

/-- `ChunkBoundary::has_complete_chunk`. -/
def has_complete_chunk (C : ChunkBoundaryImpl Tok) (tokens : List Tok) (start : Nat) : Bool :=
  (find_boundary C tokens start).isSome

/-- The `impl ChunkBoundary for JsonLine` of the JSONL example. -/
def jsonCB : ChunkBoundaryImpl Token where
  is_boundary_token t := match t with | .newline => Bool.true | _ => Bool.false
  depth_delta t :=
    match t with
    | .lbrace | .lbracket => 1
    | .rbrace | .rbracket => -1
    | _ => 0
  is_ignorable t := match t with | .space | .tab => Bool.true | _ => Bool.false
  depth_delta_i32 := by
    intro t
    cases t <;> exact ⟨by norm_num [I32_HALF], by norm_num [I32_HALF]⟩

/-! Specification-side view of `find_boundary`: the running `i32` depth after
a prefix, and what it means to be a boundary hit.  A separate exact-integer
(`ideal`) depth captures the unbounded reading of "depth". -/

/-- The `i32` depth accumulated left-to-right over a token list from `d`. -/
def foldDepth (C : ChunkBoundaryImpl Tok) (d : Int) (l : List Tok) : Int :=
  l.foldl (fun d t => wrap32 (d + C.depth_delta t)) d

/-- The `i32` depth counter after processing token `i`, having started from 0
at index `start` (deltas of tokens `start..=i` included). -/
def depth_through (C : ChunkBoundaryImpl Tok) (ts : List Tok) (start i : Nat) : Int :=
  foldDepth C 0 ((ts.drop start).take (i + 1 - start))

/-- Token `i` is a boundary observed while the `i32` depth counter is 0 when
scanning from `start`. -/
def boundary_at (C : ChunkBoundaryImpl Tok) (ts : List Tok) (start i : Nat) : Prop :=
  start ≤ i ∧ (∃ t, ts.get? i = some t ∧ C.is_boundary_token t = true) ∧
    depth_through C ts start i = 0

/-- Exact (unbounded-integer) sum of `depth_delta` over a token list. -/
def sumDeltas (C : ChunkBoundaryImpl Tok) (l : List Tok) : Int :=
  l.foldl (fun d t => d + C.depth_delta t) 0

/-- The exact-integer depth after token `i`, scanning from `start` — the
unbounded reading of "depth". -/
def ideal_depth_through (C : ChunkBoundaryImpl Tok) (ts : List Tok) (start i : Nat) : Int :=
  sumDeltas C ((ts.drop start).take (i + 1 - start))

/-- Boundary at exact-integer depth 0. -/
def ideal_boundary_at (C : ChunkBoundaryImpl Tok) (ts : List Tok) (start i : Nat) : Prop :=
  start ≤ i ∧ (∃ t, ts.get? i = some t ∧ C.is_boundary_token t = true) ∧
    ideal_depth_through C ts start i = 0

/-- Relative boundary hit: position `j` of list `l`, with the wrapped depth
`d` carried in from the part of the scan already performed. -/
def relHit (C : ChunkBoundaryImpl Tok) (d : Int) (l : List Tok) (j : Nat) : Prop :=
  (∃ t, l.get? j = some t ∧ C.is_boundary_token t = true) ∧
    foldDepth C d (l.take (j + 1)) = 0

lemma foldl_delta_shift (C : ChunkBoundaryImpl Tok) (l : List Tok) :
    ∀ a : Int, l.foldl (fun d t => d + C.depth_delta t) a
      = a + l.foldl (fun d t => d + C.depth_delta t) 0 := by
  induction l with
  | nil => intro a; simp
  | cons t rest ih =>
    intro a
    simp only [List.foldl_cons]
    rw [ih (a + C.depth_delta t), ih (0 + C.depth_delta t)]
    omega

lemma sumDeltas_cons (C : ChunkBoundaryImpl Tok) (t : Tok) (l : List Tok) :
    sumDeltas C (t :: l) = C.depth_delta t + sumDeltas C l := by
  simp only [sumDeltas, List.foldl_cons]
  rw [foldl_delta_shift]
  omega

lemma relHit_zero (C : ChunkBoundaryImpl Tok) (d : Int) (t : Tok) (rest : List Tok) :
    relHit C d (t :: rest) 0 ↔
      (wrap32 (d + C.depth_delta t) = 0 ∧ C.is_boundary_token t = true) := by
  simp only [relHit, List.get?_cons_zero, List.take_succ_cons, List.take_zero]
  constructor
  · rintro ⟨⟨t', ht', hb⟩, hd⟩
    cases ht'
    exact ⟨by simpa [foldDepth] using hd, hb⟩
  · rintro ⟨hd, hb⟩
    exact ⟨⟨t, rfl, hb⟩, by simpa [foldDepth] using hd⟩

lemma relHit_succ (C : ChunkBoundaryImpl Tok) (d : Int) (t : Tok) (rest : List Tok) (j : Nat) :
    relHit C d (t :: rest) (j + 1) ↔ relHit C (wrap32 (d + C.depth_delta t)) rest j := by
  simp only [relHit, List.get?_cons_succ, List.take_succ_cons, foldDepth, List.foldl_cons]

lemma findBoundaryFrom_some_iff (C : ChunkBoundaryImpl Tok) :
    ∀ (l : List Tok) (i₀ : Nat) (d : Int) (k : Nat),
      findBoundaryFrom C l i₀ d = some k ↔
        ∃ j, relHit C d l j ∧ k = i₀ + j + 1 ∧ ∀ j' < j, ¬ relHit C d l j' := by
  intro l
  induction l with
  | nil =>
    intro i₀ d k
    simp [findBoundaryFrom, relHit]
  | cons t rest ih =>
    intro i₀ d k
    simp only [findBoundaryFrom]
    by_cases h : (wrap32 (d + C.depth_delta t) = 0 ∧ C.is_boundary_token t = true)
    · rw [if_pos h]
      constructor
      · rintro hk
        refine ⟨0, (relHit_zero C d t rest).mpr h, ?_, ?_⟩
        · exact (Option.some.inj hk).symm
        · intro j' hj'; omega
      · rintro ⟨j, hhit, hk, hmin⟩
        have hj0 : j = 0 := by
          by_contra hne
          exact hmin 0 (Nat.pos_of_ne_zero hne) ((relHit_zero C d t rest).mpr h)
        subst hj0
        simp [hk]
    · rw [if_neg h]
      rw [ih (i₀ + 1) (wrap32 (d + C.depth_delta t)) k]
      constructor
      · rintro ⟨j, hhit, hk, hmin⟩
        refine ⟨j + 1, (relHit_succ C d t rest j).mpr hhit, by omega, ?_⟩
        intro j' hj'
        match j' with
        | 0 => rw [relHit_zero]; exact h
        | j'' + 1 =>
          rw [relHit_succ]
          exact hmin j'' (by omega)
      · rintro ⟨j, hhit, hk, hmin⟩
        match j with
        | 0 => exact absurd ((relHit_zero C d t rest).mp hhit) h
        | j'' + 1 =>
          refine ⟨j'', (relHit_succ C d t rest j'').mp hhit, by omega, ?_⟩
          intro j' hj'
          have := hmin (j' + 1) (by omega)
          rw [relHit_succ] at this
          exact this

lemma findBoundaryFrom_none_iff (C : ChunkBoundaryImpl Tok) :
    ∀ (l : List Tok) (i₀ : Nat) (d : Int),
      findBoundaryFrom C l i₀ d = none ↔ ∀ j, ¬ relHit C d l j := by
  intro l
  induction l with
  | nil =>
    intro i₀ d
    simp [findBoundaryFrom, relHit]
  | cons t rest ih =>
    intro i₀ d
    simp only [findBoundaryFrom]
    by_cases h : (wrap32 (d + C.depth_delta t) = 0 ∧ C.is_boundary_token t = true)
    · rw [if_pos h]
      constructor
      · intro hfalse; simp at hfalse
      · intro hall
        exact absurd ((relHit_zero C d t rest).mpr h) (hall 0)
    · rw [if_neg h]
      rw [ih (i₀ + 1) (wrap32 (d + C.depth_delta t))]
      constructor
      · intro hall j
        match j with
        | 0 => rw [relHit_zero]; exact h
        | j'' + 1 => rw [relHit_succ]; exact hall j''
      · intro hall j
        have := hall (j + 1)
        rw [relHit_succ] at this
        exact this

lemma relHit_iff_boundary_at (C : ChunkBoundaryImpl Tok) (ts : List Tok) (start j : Nat) :
    relHit C 0 (ts.drop start) j ↔ boundary_at C ts start (start + j) := by
  simp only [relHit, boundary_at, depth_through]
  have hget : (ts.drop start).get? j = ts.get? (start + j) := List.get?_drop ts start j
  have hidx : start + j + 1 - start = j + 1 := by omega
  rw [hget, hidx]
  constructor
  · rintro ⟨he, hd⟩
    exact ⟨by omega, he, hd⟩
  · rintro ⟨_, he, hd⟩
    exact ⟨he, hd⟩

lemma find_boundary_some_iff (C : ChunkBoundaryImpl Tok) (ts : List Tok) (start k : Nat) :
    find_boundary C ts start = some k ↔
      ∃ i, boundary_at C ts start i ∧ k = i + 1 ∧
        ∀ i', start ≤ i' → i' < i → ¬ boundary_at C ts start i' := by
  rw [find_boundary, findBoundaryFrom_some_iff]
  constructor
  · rintro ⟨j, hhit, hk, hmin⟩
    refine ⟨start + j, (relHit_iff_boundary_at C ts start j).mp hhit, by omega, ?_⟩
    intro i' hi1 hi2 hb
    have heq : start + (i' - start) = i' := by omega
    have : relHit C 0 (ts.drop start) (i' - start) := by
      rw [relHit_iff_boundary_at, heq]; exact hb
    exact hmin (i' - start) (by omega) this
  · rintro ⟨i, hb, hk, hmin⟩
    have hstart : start ≤ i := hb.1
    have heq : start + (i - start) = i := by omega
    refine ⟨i - start, ?_, by omega, ?_⟩
    · rw [relHit_iff_boundary_at, heq]; exact hb
    · intro j' hj' hhit
      rw [relHit_iff_boundary_at] at hhit
      exact hmin (start + j') (by omega) (by omega) hhit

lemma find_boundary_none_iff (C : ChunkBoundaryImpl Tok) (ts : List Tok) (start : Nat) :
    find_boundary C ts start = none ↔ ∀ i, ¬ boundary_at C ts start i := by
  rw [find_boundary, findBoundaryFrom_none_iff]
  constructor
  · intro hall i hb
    have hstart : start ≤ i := hb.1
    have heq : start + (i - start) = i := by omega
    have : relHit C 0 (ts.drop start) (i - start) := by
      rw [relHit_iff_boundary_at, heq]; exact hb
    exact hall (i - start) this
  · intro hall j hhit
    rw [relHit_iff_boundary_at] at hhit
    exact hall (start + j) hhit

/-- Token sequence of spec scenario S3:
`LBrace, String("a"), Colon, LBracket, Newline, RBracket, RBrace, Newline`. -/
def c1Example : List Token :=
  [.lbrace, .string "a", .colon, .lbracket, .newline, .rbracket, .rbrace, .newline]

/-- C1 (amended). `find_boundary` scans from `start` maintaining the `i32`
depth counter initialised to 0, adding `depth_delta` of each token with
wrapping 32-bit arithmetic (release semantics; a debug build panics if the
accumulation overflows `i32`), and returns `some k` with `k` one past the
first boundary token observed while that counter equals 0, or `none` when no
such boundary exists in the slice; on the S3 token sequence it returns
`some 8`, and the newline at index 4 is not a boundary because the counter
there is 2 > 0. -/
theorem find_boundary_characterization :
    (∀ (Tok : Type) (C : ChunkBoundaryImpl Tok) (ts : List Tok) (start k : Nat),
      find_boundary C ts start = some k ↔
        ∃ i, boundary_at C ts start i ∧ k = i + 1 ∧
          ∀ i', start ≤ i' → i' < i → ¬ boundary_at C ts start i') ∧
    (∀ (Tok : Type) (C : ChunkBoundaryImpl Tok) (ts : List Tok) (start : Nat),
      find_boundary C ts start = none ↔ ∀ i, ¬ boundary_at C ts start i) ∧
    find_boundary jsonCB c1Example 0 = some 8 ∧
    depth_through jsonCB c1Example 0 4 = 2 ∧
    (0 : Int) < depth_through jsonCB c1Example 0 4 ∧
    ¬ boundary_at jsonCB c1Example 0 4 := by
  refine ⟨fun _ C ts start k => find_boundary_some_iff C ts start k,
    fun _ C ts start => find_boundary_none_iff C ts start, by decide, by decide, by decide, ?_⟩
  intro hb
  have h2 : depth_through jsonCB c1Example 0 4 = 2 := by decide
  rw [hb.2.2] at h2
  exact absurd h2 (by decide)

/-! The depth accumulator wraps: on `2^32` openers followed by a newline the
`i32` counter returns to 0, so the scan reports a boundary although the
exact-integer depth there is `2^32`. -/

lemma sumDeltas_append (C : ChunkBoundaryImpl Tok) (l1 l2 : List Tok) :
    sumDeltas C (l1 ++ l2) = sumDeltas C l1 + sumDeltas C l2 := by
  simp only [sumDeltas, List.foldl_append]
  rw [foldl_delta_shift]

lemma sumDeltas_replicate_lbracket (n : Nat) :
    sumDeltas jsonCB (List.replicate n Token.lbracket) = n := by
  induction n with
  | zero => simp [sumDeltas]
  | succ m ih =>
    rw [List.replicate_succ, sumDeltas_cons, ih]
    have hδ : jsonCB.depth_delta Token.lbracket = 1 := rfl
    rw [hδ]
    push_cast
    ring

lemma findBoundaryFrom_cons_lbracket (l : List Token) (i : Nat) (d : Int) :
    findBoundaryFrom jsonCB (Token.lbracket :: l) i d =
      findBoundaryFrom jsonCB l (i + 1) (wrap32 (d + 1)) := by
  simp only [findBoundaryFrom]
  rw [show jsonCB.depth_delta Token.lbracket = 1 from rfl]
  have hcond : ¬ (wrap32 (d + 1) = 0 ∧ jsonCB.is_boundary_token Token.lbracket = true) := by
    rintro ⟨-, hb⟩
    exact absurd hb (by decide)
  rw [if_neg hcond]

lemma findBoundaryFrom_replicate_lbracket :
    ∀ (n : Nat) (rest : List Token) (i : Nat) (d : Int),
      -I32_HALF ≤ d → d < I32_HALF →
      findBoundaryFrom jsonCB (List.replicate n Token.lbracket ++ rest) i d =
        findBoundaryFrom jsonCB rest (i + n) (wrap32 (d + n)) := by
  intro n
  induction n with
  | zero =>
    intro rest i d h1 h2
    have hw : wrap32 d = d := wrap32_eq_of_bounds d h1 h2
    simp [hw]
  | succ m ih =>
    intro rest i d h1 h2
    rw [List.replicate_succ, List.cons_append, findBoundaryFrom_cons_lbracket,
      ih rest (i + 1) (wrap32 (d + 1)) (wrap32_bounds _).1 (wrap32_bounds _).2]
    have hidx : i + 1 + m = i + (m + 1) := by omega
    have hdep : wrap32 (wrap32 (d + 1) + (m : Int)) = wrap32 (d + ((m + 1 : Nat) : Int)) := by
      rw [wrap32_add_left]
      congr 1
      push_cast
      ring
    rw [hidx, hdep]

lemma wrap32_pow32 : wrap32 ((2 : Int) ^ 32) = 0 := by decide

/-- `2^32` opening brackets followed by one newline: the wrapped `i32` depth
counter returns to 0 exactly at the newline. -/
def c1WrapInput : List Token := List.replicate (2 ^ 32) Token.lbracket ++ [Token.newline]

/-- Counterexample to C1 as stated: on `2^32` `LBracket` tokens followed by a
`Newline`, the release-build `i32` depth accumulator wraps back to 0, so
`find_boundary` returns `Some(2^32 + 1)` — yet the exact-integer depth at
that newline is `2^32 ≠ 0`, so the newline is not a boundary token observed
at (exact) depth 0 and the claim's characterization demands `None` (a debug
build panics on the overflow instead of returning). -/
theorem find_boundary_wrap_cex :
    find_boundary jsonCB c1WrapInput 0 = some (2 ^ 32 + 1) ∧
    ideal_depth_through jsonCB c1WrapInput 0 (2 ^ 32) = 2 ^ 32 ∧
    ¬ ideal_boundary_at jsonCB c1WrapInput 0 (2 ^ 32) := by
  have hdep : ideal_depth_through jsonCB c1WrapInput 0 (2 ^ 32) = 2 ^ 32 := by
    unfold ideal_depth_through c1WrapInput
    rw [List.drop_zero, Nat.sub_zero]
    have hlen : (List.replicate (2 ^ 32) Token.lbracket ++ [Token.newline]).length ≤ 2 ^ 32 + 1 := by
      rw [List.length_append, List.length_replicate, List.length_singleton]
    rw [List.take_of_length_le hlen, sumDeltas_append, sumDeltas_replicate_lbracket]
    have h1 : sumDeltas jsonCB [Token.newline] = 0 := by decide
    rw [h1]
    push_cast
  refine ⟨?_, hdep, ?_⟩
  · unfold find_boundary c1WrapInput
    rw [List.drop_zero,
      findBoundaryFrom_replicate_lbracket (2 ^ 32) [Token.newline] 0 0 (by decide) (by decide)]
    have hw : wrap32 ((0 : Int) + ((2 ^ 32 : Nat) : Int)) = 0 := by
      push_cast
      simpa using wrap32_pow32
    rw [hw]
    simp only [findBoundaryFrom]
    have hcond : wrap32 ((0 : Int) + jsonCB.depth_delta Token.newline) = 0 ∧
        jsonCB.is_boundary_token Token.newline = true := ⟨by decide, by decide⟩
    rw [if_pos hcond]
    norm_num
  · intro hb
    have hd0 := hb.2.2
    rw [hdep] at hd0
    exact absurd hd0 (by norm_num)

/-- C8. `call_site` is a distinct synthetic span and the generated inherent
`Span::join` treats it as the identity: `join(call_site, x) = x` and
`join(x, call_site) = x` for every `x`, and joining two call-site spans
yields call-site. -/
theorem span_join_call_site_identity :
    (∀ x : Span, Span.join Span.call_site x = x) ∧
    (∀ x : Span, Span.join x Span.call_site = x) ∧
    Span.join Span.call_site Span.call_site = Span.call_site ∧
    (∀ s e : Nat, Span.call_site ≠ Span.new s e) := by
  refine ⟨?_, ?_, rfl, ?_⟩
  · intro x; cases x <;> rfl
  · intro x; cases x <;> rfl
  · intro s e h; exact Span.noConfusion h

/-! ### The generated `TokenStream` (src/macros/src/parser_kit.rs)

The Rust struct holds `source`, `source_path`, an `Arc`-shared token vector
and four cursor fields.  All stream operations obtain only shared (`&`)
access to the token vector through the `Arc`, so the vector is passed here as
a separate read-only argument `buf` and the mutable state is the four cursor
fields. -/

structure Cursors where
  cursor : Nat
  range_start : Nat
  range_end : Nat
  last_cursor : Nat
deriving DecidableEq, Repr

/-- `TokenStream::from_tokens`: full-range stream over pre-lexed tokens. -/
def from_tokens (buf : List (Spanned Tok)) : Cursors :=
  ⟨0, 0, buf.length, 0⟩

/-- `TokenStream::from_tokens_range`: stream over a sub-range of the tokens. -/
def from_tokens_range (s e : Nat) : Cursors :=
  ⟨s, s, e, s⟩

/-- `TokenStream::next_raw`: return the token under the cursor and advance,
or `none` at the end of the sub-range (or past the end of the vector). -/
def next_raw (buf : List (Spanned Tok)) (c : Cursors) : Cursors × Option (Spanned Tok) :=
  if c.range_end ≤ c.cursor then (c, none)
  else
    match buf.get? c.cursor with
    | some tok => ({ c with last_cursor := c.cursor, cursor := c.cursor + 1 }, some tok)
    | none => (c, none)

/-- The loop of `TokenStream::next`, with fuel; one unit of fuel is spent per
skipped token.  The wrapper `next` passes `range_end - cursor + 1` units,
which exceeds the number of tokens the loop can consume, so the fuel-0 branch
is never reached. -/
def nextLoop (isSkip : Tok → Bool) (buf : List (Spanned Tok)) :
    Nat → Cursors → Cursors × Option (Spanned Tok)
  | 0, c => (c, none)
  | fuel + 1, c =>
    match next_raw buf c with
    | (c', none) => (c', none)
    | (c', some tok) =>
      if isSkip tok.value then nextLoop isSkip buf fuel c' else (c', some tok)

/-- `TokenStream::next`: keep taking raw tokens until one outside the skip
set appears. -/
def next (isSkip : Tok → Bool) (buf : List (Spanned Tok)) (c : Cursors) :
    Cursors × Option (Spanned Tok) :=
  nextLoop isSkip buf (c.range_end - c.cursor + 1) c

/-- Rust's `Ord::clamp`, which panics when `lo > hi` (modelled by `none`). -/
def clampUsize (x lo hi : Nat) : Option Nat :=
  if lo ≤ hi then some (max lo (min x hi)) else none

/-- `TokenStream::rewind`: set the cursor to `pos` clamped to
`[range_start, range_end]`. -/
def rewind (c : Cursors) (pos : Nat) : Option Cursors :=
  (clampUsize pos c.range_start c.range_end).map (fun p => { c with cursor := p })

/-- `TokenStream::fork`: copy the cursor fields; the token vector is shared. -/
def fork (c : Cursors) : Cursors := c

/-- `TokenStream::span_at`: span of the token at `pos` in the shared vector. -/
def span_at (buf : List (Spanned Tok)) (pos : Nat) : Option Span :=
  (buf.get? pos).map (·.span)

/-- `TokenStream::cursor_span`: span of the token under the cursor. -/
def cursor_span (buf : List (Spanned Tok)) (c : Cursors) : Option Span :=
  (buf.get? c.cursor).map (·.span)

/-- `TokenStream::last_span`: span of the most recently consumed token. -/
def last_span (buf : List (Spanned Tok)) (c : Cursors) : Option Span :=
  (buf.get? c.last_cursor).map (·.span)

/-! ### Cursor soundness (C6) -/

/-- The operations of the cursor-soundness claim. -/
inductive StreamOp where
  | nextRaw
  | rewindTo (pos : Nat)
  | forkOp
deriving DecidableEq, Repr

/-- Apply one operation; `none` models a panic (only `rewind` could panic,
via `clamp`). -/
def applyOp (buf : List (Spanned Tok)) (c : Cursors) : StreamOp → Option Cursors
  | .nextRaw => some (next_raw buf c).1
  | .rewindTo pos => rewind c pos
  | .forkOp => some (fork c)

def applyOps (buf : List (Spanned Tok)) (c : Cursors) : List StreamOp → Option Cursors
  | [] => some c
  | op :: ops => (applyOp buf c op).bind (fun c' => applyOps buf c' ops)

/-- Cursor well-formedness: `range_start ≤ cursor ≤ range_end`. -/
def CursorWF (c : Cursors) : Prop :=
  c.range_start ≤ c.cursor ∧ c.cursor ≤ c.range_end

instance : DecidablePred CursorWF := fun c =>
  inferInstanceAs (Decidable (c.range_start ≤ c.cursor ∧ c.cursor ≤ c.range_end))

lemma next_raw_fields (buf : List (Spanned Tok)) (c : Cursors) :
    (next_raw buf c).1.range_start = c.range_start ∧
    (next_raw buf c).1.range_end = c.range_end ∧
    (c.cursor ≤ (next_raw buf c).1.cursor ∧ (next_raw buf c).1.cursor ≤ c.cursor + 1) ∧
    ((next_raw buf c).1.cursor = c.cursor + 1 → c.cursor < c.range_end) := by
  unfold next_raw
  split
  · exact ⟨rfl, rfl, ⟨Nat.le_refl _, Nat.le_succ _⟩, fun h => by simp at h⟩
  · split
    · exact ⟨rfl, rfl, ⟨Nat.le_succ _, Nat.le_refl _⟩, fun _ => by omega⟩
    · exact ⟨rfl, rfl, ⟨Nat.le_refl _, Nat.le_succ _⟩, fun h => by simp at h⟩

lemma applyOp_wf (buf : List (Spanned Tok)) (c : Cursors) (op : StreamOp) (h : CursorWF c) :
    ∃ c', applyOp buf c op = some c' ∧ CursorWF c' := by
  cases op with
  | nextRaw =>
    refine ⟨(next_raw buf c).1, rfl, ?_⟩
    have hf := next_raw_fields buf c
    obtain ⟨h1, h2⟩ := h
    constructor
    · omega
    · rcases Nat.lt_or_ge c.cursor c.range_end with hlt | hge
      · omega
      · have : (next_raw buf c).1.cursor = c.cursor := by
          rcases Nat.eq_or_lt_of_le hf.2.2.1.1 with he | hl
          · omega
          · exfalso
            have := hf.2.2.2 (by omega)
            omega
        omega
  | rewindTo pos =>
    obtain ⟨h1, h2⟩ := h
    refine ⟨{ c with cursor := max c.range_start (min pos c.range_end) }, ?_, ?_⟩
    · simp only [applyOp, rewind, clampUsize]
      rw [if_pos (by omega : c.range_start ≤ c.range_end)]
      rfl
    · exact ⟨by simp, by simp; omega⟩
  | forkOp => exact ⟨c, rfl, h⟩

lemma applyOps_wf (buf : List (Spanned Tok)) :
    ∀ (ops : List StreamOp) (c : Cursors), CursorWF c →
      ∃ c', applyOps buf c ops = some c' ∧ CursorWF c' := by
  intro ops
  induction ops with
  | nil => intro c h; exact ⟨c, rfl, h⟩
  | cons op rest ih =>
    intro c h
    obtain ⟨c₁, hop, hwf₁⟩ := applyOp_wf buf c op h
    obtain ⟨c', hops, hwf'⟩ := ih c₁ hwf₁
    refine ⟨c', ?_, hwf'⟩
    simp [applyOps, hop, hops]

/-- C6. Starting from a well-formed stream (as produced by every
constructor), any sequence of `next_raw` / `rewind` / `fork` operations
succeeds without panicking and keeps `range_start ≤ cursor ≤ range_end`;
in particular `rewind(pos)` saturates — it never panics even when `pos`
exceeds `range_end`, and the resulting cursor is `pos` clamped into the
range. -/
theorem cursor_soundness (Tok : Type) :
    (∀ buf : List (Spanned Tok), CursorWF (from_tokens buf)) ∧
    (∀ (buf : List (Spanned Tok)) (c : Cursors) (ops : List StreamOp), CursorWF c →
      ∃ c', applyOps buf c ops = some c' ∧ CursorWF c') ∧
    (∀ (c : Cursors) (pos : Nat), c.range_start ≤ c.range_end →
      rewind c pos = some { c with cursor := max c.range_start (min pos c.range_end) }) := by
  refine ⟨?_, fun buf c ops h => applyOps_wf buf ops c h, ?_⟩
  · intro buf
    exact ⟨Nat.le_refl 0, Nat.zero_le _⟩
  · intro c pos h
    unfold rewind clampUsize
    rw [if_pos h]
    rfl

/-- Witness for C6 at a concrete stream and operation sequence (a rewind far
past `range_end` included). -/
theorem cursor_soundness_witness :
    CursorWF (⟨0, 0, 2, 0⟩ : Cursors) ∧
    ∃ c', applyOps [⟨Span.new 0 1, Token.lbrace⟩, ⟨Span.new 1 2, Token.rbrace⟩]
        (⟨0, 0, 2, 0⟩ : Cursors)
        [.nextRaw, .rewindTo 100, .nextRaw, .forkOp, .nextRaw] = some c' ∧ CursorWF c' :=
  ⟨by decide,
    (cursor_soundness Token).2.1
      [⟨Span.new 0 1, Token.lbrace⟩, ⟨Span.new 1 2, Token.rbrace⟩] ⟨0, 0, 2, 0⟩
      [.nextRaw, .rewindTo 100, .nextRaw, .forkOp, .nextRaw] (by decide)⟩

/-! ### Span lookup (C9) -/

/-- A two-token buffer used with a sub-range stream over its first token. -/
def c9Buf : List (Spanned Token) :=
  [⟨Span.new 0 1, .lbrace⟩, ⟨Span.new 5 9, .rbrace⟩]

/-- Counterexample to C9 as stated: on a stream whose sub-range is `[0, 1)`
(built with `from_tokens_range`), position 1 lies outside the sub-range, yet
`span_at(1)` returns `Some` (of the token's span in the shared buffer), and
after one `next_raw` the cursor sits at `range_end = 1` where `cursor_span`
also returns `Some` — not `None` as the claim requires. -/
theorem span_lookup_out_of_subrange_cex :
    (from_tokens_range 0 1).range_start = 0 ∧ (from_tokens_range 0 1).range_end = 1 ∧
    span_at c9Buf 1 = some (Span.new 5 9) ∧
    (next_raw c9Buf (from_tokens_range 0 1)).1.cursor = 1 ∧
    cursor_span c9Buf (next_raw c9Buf (from_tokens_range 0 1)).1 = some (Span.new 5 9) := by
  decide

/-- C9 amended. `cursor_span` / `last_span` / `span_at(i)` look positions up
in the underlying shared token buffer, regardless of the stream's sub-range:
they return `None` exactly when the position is out of bounds of the buffer,
and `Some` of the token's span whenever the position is within the buffer. -/
theorem span_lookup_amended (Tok : Type) (buf : List (Spanned Tok)) (c : Cursors) (pos : Nat) :
    (span_at buf pos = none ↔ buf.length ≤ pos) ∧
    (pos < buf.length → ∃ t, buf.get? pos = some t ∧ span_at buf pos = some t.span) ∧
    cursor_span buf c = span_at buf c.cursor ∧
    last_span buf c = span_at buf c.last_cursor := by
  refine ⟨?_, ?_, rfl, rfl⟩
  · simp [span_at, List.get?_eq_none]
  · intro hlt
    rcases List.get?_eq_get hlt with h
    exact ⟨buf.get ⟨pos, hlt⟩, h, by unfold span_at; rw [h]; simp⟩

/-- Witness for the amended C9 at a concrete in-bounds position. -/
theorem span_lookup_amended_witness :
    (1 < c9Buf.length) ∧ ∃ t, c9Buf.get? 1 = some t ∧ span_at c9Buf 1 = some t.span :=
  ⟨by decide, (span_lookup_amended Token c9Buf ⟨0, 0, 1, 0⟩ 1).2.1 (by decide)⟩

/-! ### Fork independence (C5)

The token vector sits behind an `Arc`, so every stream sharing it sees the
same contents and no stream operation can write it; the cursor fields are
per-stream.  The heap is modelled as one shared buffer plus a table of
cursor records; handles are table indices, `fork` appends a copy of the
forked stream's cursor record. -/

structure SharedState (Tok : Type) where
  buf : List (Spanned Tok)
  streams : List Cursors
deriving DecidableEq, Repr

/-- Mutating operations of a single stream. -/
inductive MutOp where
  | nextRaw
  | nextSig
  | rewindTo (pos : Nat)
deriving DecidableEq, Repr

/-- An action of the fork-independence claim: mutate the stream behind a
handle, or fork a handle (appending the new stream to the table). -/
inductive StreamAction where
  | mutate (h : Nat) (op : MutOp)
  | forkFrom (h : Nat)
deriving DecidableEq, Repr

def applyMut (isSkip : Tok → Bool) (buf : List (Spanned Tok)) (c : Cursors) :
    MutOp → Option Cursors
  | .nextRaw => some (next_raw buf c).1
  | .nextSig => some (next isSkip buf c).1
  | .rewindTo pos => rewind c pos

def applyAction (isSkip : Tok → Bool) (st : SharedState Tok) :
    StreamAction → Option (SharedState Tok)
  | .mutate h op =>
    (st.streams.get? h).bind fun c =>
      (applyMut isSkip st.buf c op).map fun c' =>
        { st with streams := st.streams.set h c' }
  | .forkFrom h =>
    (st.streams.get? h).map fun c => { st with streams := st.streams ++ [fork c] }

def applyActions (isSkip : Tok → Bool) (st : SharedState Tok) :
    List StreamAction → Option (SharedState Tok)
  | [] => some st
  | a :: rest => (applyAction isSkip st a).bind fun st' => applyActions isSkip st' rest

/-- The handle an action mutates, if any (`fork` mutates no existing stream). -/
def mutTarget : StreamAction → Option Nat
  | .mutate h _ => some h
  | .forkFrom _ => none

/-- The sub-range view of stream `i`: the buffer contents visible through it. -/
def viewOf (st : SharedState Tok) (i : Nat) : Option (List (Spanned Tok)) :=
  (st.streams.get? i).map fun c => (st.buf.take c.range_end).drop c.range_start

/-- The remaining significant-token count of stream `i` (`TokenStream::remaining`). -/
def remainingOf (isSkip : Tok → Bool) (st : SharedState Tok) (i : Nat) : Option Nat :=
  (st.streams.get? i).map fun c =>
    (((st.buf.take c.range_end).drop c.cursor).filter (fun t => !isSkip t.value)).length

lemma applyAction_frame (isSkip : Tok → Bool) (st : SharedState Tok) (a : StreamAction)
    (i : Nat) (hi : mutTarget a ≠ some i) (hlen : i < st.streams.length)
    (st' : SharedState Tok) (h : applyAction isSkip st a = some st') :
    st'.buf = st.buf ∧ st'.streams.get? i = st.streams.get? i ∧
      i < st'.streams.length := by
  cases a with
  | mutate hdl op =>
    simp only [applyAction, Option.bind_eq_some, Option.map_eq_some'] at h
    obtain ⟨c, hget, c', hmut, hst⟩ := h
    subst hst
    have hne : hdl ≠ i := by
      intro he; exact hi (by simp [mutTarget, he])
    refine ⟨rfl, ?_, by simpa using hlen⟩
    simp only [List.get?_eq_getElem?]
    exact List.getElem?_set_ne hne
  | forkFrom hdl =>
    simp only [applyAction, Option.map_eq_some'] at h
    obtain ⟨c, hget, hst⟩ := h
    subst hst
    refine ⟨rfl, ?_, ?_⟩
    · simp only [List.get?_eq_getElem?]
      exact List.getElem?_append_left hlen
    · simp
      omega

lemma applyActions_frame (isSkip : Tok → Bool) :
    ∀ (acts : List StreamAction) (st : SharedState Tok) (i : Nat),
      (∀ a ∈ acts, mutTarget a ≠ some i) → i < st.streams.length →
      ∀ st', applyActions isSkip st acts = some st' →
        st'.buf = st.buf ∧ st'.streams.get? i = st.streams.get? i := by
  intro acts
  induction acts with
  | nil =>
    intro st i _ _ st' h
    cases h
    exact ⟨rfl, rfl⟩
  | cons a rest ih =>
    intro st i hmt hlen st' h
    simp only [applyActions, Option.bind_eq_some] at h
    obtain ⟨st₁, ha, hrest⟩ := h
    obtain ⟨hb₁, hs₁, hlen₁⟩ := applyAction_frame isSkip st a i (hmt a (by simp)) hlen st₁ ha
    obtain ⟨hb₂, hs₂⟩ := ih st₁ i (fun a' ha' => hmt a' (by simp [ha'])) hlen₁ st' hrest
    exact ⟨hb₂.trans hb₁, hs₂.trans hs₁⟩

/-- C5. Fork independence: forking appends an identical cursor record over
the shared buffer, and any sequence of actions that never mutates handle `i`
(forks of any handle and mutations of other handles, in particular of the
fork) leaves the buffer, stream `i`'s cursor record, its visible view, and
its remaining significant-token count unchanged. -/
theorem fork_independence (Tok : Type) (isSkip : Tok → Bool) (st : SharedState Tok)
    (i : Nat) (acts : List StreamAction) (st' : SharedState Tok)
    (hmt : ∀ a ∈ acts, mutTarget a ≠ some i)
    (hlen : i < st.streams.length)
    (h : applyActions isSkip st acts = some st') :
    (∀ c, fork c = c) ∧
    st'.buf = st.buf ∧
    st'.streams.get? i = st.streams.get? i ∧
    viewOf st' i = viewOf st i ∧
    remainingOf isSkip st' i = remainingOf isSkip st i := by
  obtain ⟨hb, hs⟩ := applyActions_frame isSkip acts st i hmt hlen st' h
  refine ⟨fun c => rfl, hb, hs, ?_, ?_⟩
  · unfold viewOf; rw [hb, hs]
  · unfold remainingOf; rw [hb, hs]

/-- Witness for C5: a concrete two-token state; handle 1 is a fork of handle
0, and a sequence of mutations applied to handle 1 leaves handle 0's record,
view and remaining count intact. -/
theorem fork_independence_witness :
    ∃ st', applyActions (fun t => decide (t = Token.space))
        ⟨c9Buf, [⟨0, 0, 2, 0⟩]⟩
        [.forkFrom 0, .mutate 1 .nextRaw, .mutate 1 (.rewindTo 7), .mutate 1 .nextSig] = some st' ∧
      st'.buf = c9Buf ∧ st'.streams.get? 0 = some ⟨0, 0, 2, 0⟩ := by
  refine ⟨⟨c9Buf, [⟨0, 0, 2, 0⟩, ⟨2, 0, 2, 0⟩]⟩, by decide, ?_, ?_⟩
  · exact (fork_independence Token (fun t => decide (t = Token.space))
      ⟨c9Buf, [⟨0, 0, 2, 0⟩]⟩ 0
      [.forkFrom 0, .mutate 1 .nextRaw, .mutate 1 (.rewindTo 7), .mutate 1 .nextSig]
      ⟨c9Buf, [⟨0, 0, 2, 0⟩, ⟨2, 0, 2, 0⟩]⟩ (by decide) (by decide) (by decide)).2.1
  · exact (fork_independence Token (fun t => decide (t = Token.space))
      ⟨c9Buf, [⟨0, 0, 2, 0⟩]⟩ 0
      [.forkFrom 0, .mutate 1 .nextRaw, .mutate 1 (.rewindTo 7), .mutate 1 .nextSig]
      ⟨c9Buf, [⟨0, 0, 2, 0⟩, ⟨2, 0, 2, 0⟩]⟩ (by decide) (by decide) (by decide)).2.2.1

/-! ### IncrementalBuffer (src/core/src/async_stream.rs) -/

/-- `usize` arithmetic is modulo `2^64` on the 64-bit targets the crate
asserts (release mode wraps; debug mode panics on overflow). -/
def USIZE : Nat := 2 ^ 64

def USIZE_MAX : Nat := USIZE - 1

structure IncrementalBuffer (T : Type) where
  tokens : List T
  cursor : Nat
deriving DecidableEq, Repr

/-- `IncrementalBuffer::len`: number of unconsumed tokens. -/
def IncrementalBuffer.len (b : IncrementalBuffer T) : Nat :=
  b.tokens.length - b.cursor

/-- `IncrementalBuffer::remaining`: unconsumed tokens. -/
def IncrementalBuffer.remaining (b : IncrementalBuffer T) : List T :=
  b.tokens.drop b.cursor

/-- `IncrementalBuffer::consume` with release-mode (wrapping) `usize`
addition: `self.cursor = (self.cursor + n).min(self.tokens.len())`. -/
def IncrementalBuffer.consume (b : IncrementalBuffer T) (n : Nat) : IncrementalBuffer T :=
  { b with cursor := min ((b.cursor + n) % USIZE) b.tokens.length }

/-- `IncrementalBuffer::consume` with debug-mode overflow checking: `none`
models the panic of `self.cursor + n` overflowing. -/
def IncrementalBuffer.consume_checked (b : IncrementalBuffer T) (n : Nat) :
    Option (IncrementalBuffer T) :=
  if b.cursor + n < USIZE then some { b with cursor := min (b.cursor + n) b.tokens.length }
  else none

/-- `IncrementalBuffer::compact`: drop the consumed prefix. -/
def IncrementalBuffer.compact (b : IncrementalBuffer T) : IncrementalBuffer T :=
  if 0 < b.cursor then { tokens := b.tokens.drop b.cursor, cursor := 0 } else b

/-- C7 evaluated at the failing input, with `tokens = [10, 20, 30]` and
`cursor = 1`: passing the `usize::MAX` sentinel wraps `cursor + n` to
`cursor - 1`, so the release build moves the cursor backwards to 0 (and the
debug build panics on the overflowing addition) instead of advancing it by
`min(n, remaining) = 2` to 3 as the claim (and the function's own
documentation) requires; a non-overflowing call behaves as claimed. -/
theorem consume_sentinel_overflow :
    ((⟨[10, 20, 30], 1⟩ : IncrementalBuffer Nat).consume (USIZE - 1)).cursor = 0 ∧
    (⟨[10, 20, 30], 1⟩ : IncrementalBuffer Nat).consume_checked (USIZE - 1) = none ∧
    1 + min (USIZE - 1) ((⟨[10, 20, 30], 1⟩ : IncrementalBuffer Nat).len) = 3 ∧
    ((⟨[10, 20, 30], 1⟩ : IncrementalBuffer Nat).consume 2).cursor = 3 := by
  refine ⟨?_, ?_, ?_, ?_⟩ <;> decide

/-! ### ParseConfig and RecursionGuard (src/core/src/config.rs) -/

/-- The error kinds of the core `Error` type used by the recursion guard. -/
inductive CoreError where
  | streamNotConsumed (remaining : Nat)
  | recursionLimitExceeded (depth limit : Nat)
deriving DecidableEq, Repr

structure ParseConfig where
  max_recursion_depth : Nat
  max_tokens : Nat
deriving DecidableEq, Repr

def ParseConfig.DEFAULT : ParseConfig := ⟨128, USIZE_MAX⟩

def ParseConfig.new : ParseConfig := ParseConfig.DEFAULT

def ParseConfig.with_max_recursion_depth (c : ParseConfig) (d : Nat) : ParseConfig :=
  { c with max_recursion_depth := d }

def ParseConfig.with_max_tokens (c : ParseConfig) (n : Nat) : ParseConfig :=
  { c with max_tokens := n }

def ParseConfig.disable_recursion_limit (c : ParseConfig) : ParseConfig :=
  c.with_max_recursion_depth USIZE_MAX

structure RecursionGuard where
  depth : Nat
deriving DecidableEq, Repr

/-- `RecursionGuard::enter`: saturating increment, then limit check. -/
def RecursionGuard.enter (g : RecursionGuard) (limit : Nat) :
    Except CoreError RecursionGuard :=
  let d := min (g.depth + 1) USIZE_MAX
  if limit < d then .error (.recursionLimitExceeded d limit) else .ok ⟨d⟩

/-- `RecursionGuard::exit`: saturating decrement (Nat subtraction saturates). -/
def RecursionGuard.exit (g : RecursionGuard) : RecursionGuard :=
  ⟨g.depth - 1⟩

inductive GuardOp where
  | enterOp
  | exitOp
deriving DecidableEq, Repr

/-- Run a sequence of `enter`/`exit` calls against a fixed limit. -/
def runGuard (limit : Nat) : RecursionGuard → List GuardOp → Except CoreError RecursionGuard
  | g, [] => .ok g
  | g, .enterOp :: ops =>
    match g.enter limit with
    | .ok g' => runGuard limit g' ops
    | .error e => .error e
  | g, .exitOp :: ops => runGuard limit g.exit ops

lemma enter_max_ok (g : RecursionGuard) :
    g.enter USIZE_MAX = .ok ⟨min (g.depth + 1) USIZE_MAX⟩ := by
  unfold RecursionGuard.enter
  rw [if_neg (by omega)]

lemma runGuard_max_ok :
    ∀ (ops : List GuardOp) (g : RecursionGuard), g.depth ≤ USIZE_MAX →
      ∃ g', runGuard USIZE_MAX g ops = .ok g' ∧ g'.depth ≤ USIZE_MAX := by
  intro ops
  induction ops with
  | nil => intro g h; exact ⟨g, rfl, h⟩
  | cons op rest ih =>
    intro g h
    cases op with
    | enterOp =>
      obtain ⟨g', hr, hd⟩ := ih ⟨min (g.depth + 1) USIZE_MAX⟩ (by simp)
      refine ⟨g', ?_, hd⟩
      simp only [runGuard, enter_max_ok]
      exact hr
    | exitOp =>
      obtain ⟨g', hr, hd⟩ := ih g.exit (by simp [RecursionGuard.exit]; omega)
      exact ⟨g', hr, hd⟩

/-- C10. `enter` saturates the depth at `usize::MAX` and errors exactly when
the (saturated) new depth exceeds the limit, so with the limit produced by
`ParseConfig::disable_recursion_limit` (namely `usize::MAX`) every sequence
of `enter`/`exit` calls succeeds and the depth stays at most `usize::MAX`;
`exit` saturates at 0, so surplus exits do not underflow. -/
theorem recursion_guard_saturates :
    (ParseConfig.new.disable_recursion_limit).max_recursion_depth = USIZE_MAX ∧
    (∀ (g : RecursionGuard) (limit : Nat),
      (∃ e, g.enter limit = .error e) ↔ limit < min (g.depth + 1) USIZE_MAX) ∧
    (∀ (ops : List GuardOp) (g : RecursionGuard), g.depth ≤ USIZE_MAX →
      ∃ g', runGuard USIZE_MAX g ops = .ok g' ∧ g'.depth ≤ USIZE_MAX) ∧
    (∀ g : RecursionGuard, g.exit.depth = g.depth - 1) ∧
    RecursionGuard.exit ⟨0⟩ = ⟨0⟩ := by
  refine ⟨rfl, ?_, runGuard_max_ok, fun g => rfl, rfl⟩
  intro g limit
  unfold RecursionGuard.enter
  constructor
  · rintro ⟨e, he⟩
    by_contra hlt
    rw [if_neg hlt] at he
    cases he
  · intro hlt
    rw [if_pos hlt]
    exact ⟨_, rfl⟩

/-- Witness for C10 at a concrete guard and call sequence (with one surplus
exit). -/
theorem recursion_guard_saturates_witness :
    ∃ g', runGuard USIZE_MAX ⟨0⟩ [.enterOp, .enterOp, .exitOp, .exitOp, .exitOp]
        = .ok g' ∧ g'.depth ≤ USIZE_MAX :=
  recursion_guard_saturates.2.2.1 [.enterOp, .enterOp, .exitOp, .exitOp, .exitOp] ⟨0⟩
    (Nat.zero_le _)

/-! ### Delimiter extraction: `TokenStream::extract_inner` (C2) -/

/-- Errors raised by the generated `extract_inner` (the `Expected` and
`Empty` variants the macro requires of the user error type); `found` keeps
the offending token itself rather than its display string. -/
inductive StreamErr (Tok : Type) where
  | expected (expect : String) (found : Tok)
  | empty (expect : String)
deriving DecidableEq, Repr

/-- The raw scan loop of `extract_inner`, with fuel; the wrapper passes
`range_end - cursor + 1` units, one more than the number of tokens `next_raw`
can yield, so the fuel-0 branch is never reached.  On finding the balancing
close it reports `end_pos = cursor` (one past the close). -/
def scanLoop (isOpen isClose : Tok → Bool) (buf : List (Spanned Tok)) :
    Nat → Cursors → Nat → Cursors × Option Nat
  | 0, c, _ => (c, none)
  | fuel + 1, c, depth =>
    match next_raw buf c with
    | (c', none) => (c', none)
    | (c', some tok) =>
      if isOpen tok.value then scanLoop isOpen isClose buf fuel c' (depth + 1)
      else if isClose tok.value then
        if depth - 1 = 0 then (c', some c'.cursor)
        else scanLoop isOpen isClose buf fuel c' (depth - 1)
      else scanLoop isOpen isClose buf fuel c' depth

def scanToClose (isOpen isClose : Tok → Bool) (buf : List (Spanned Tok))
    (c : Cursors) (depth : Nat) : Cursors × Option Nat :=
  scanLoop isOpen isClose buf (c.range_end - c.cursor + 1) c depth

/-- Specification-side scan: the index of the matching close delimiter,
walking indices `i` below `stop` with the running depth. -/
def matchingCloseLoop (isOpen isClose : Tok → Bool) (buf : List (Spanned Tok)) :
    Nat → Nat → Nat → Nat → Option Nat
  | 0, _, _, _ => none
  | fuel + 1, stop, i, depth =>
    if stop ≤ i then none
    else
      match buf.get? i with
      | none => none
      | some t =>
        if isOpen t.value then matchingCloseLoop isOpen isClose buf fuel stop (i + 1) (depth + 1)
        else if isClose t.value then
          if depth = 1 then some i
          else matchingCloseLoop isOpen isClose buf fuel stop (i + 1) (depth - 1)
        else matchingCloseLoop isOpen isClose buf fuel stop (i + 1) depth

def matching_close (isOpen isClose : Tok → Bool) (buf : List (Spanned Tok))
    (stop i depth : Nat) : Option Nat :=
  matchingCloseLoop isOpen isClose buf (stop - i + 1) stop i depth

/-- `TokenStream::extract_inner::<Open, Close>`: consume the opening
delimiter with `next` (skip-aware), raw-scan to the balancing close, and
return the parent stream (cursor past the close), the interior sub-stream
over the shared buffer, and the covering span. -/
def extract_inner (isSkip isOpen isClose : Tok → Bool) (openFmt closeFmt : String)
    (buf : List (Spanned Tok)) (c : Cursors) :
    Except (StreamErr Tok) (Cursors × Cursors × Span) :=
  match next isSkip buf c with
  | (c₁, some tok) =>
    if isOpen tok.value then
      let first_span := tok.span
      let open_index := c₁.cursor - 1
      match scanToClose isOpen isClose buf c₁ 1 with
      | (c₂, some endPos) =>
        let close_index := endPos - 1
        let inner_start := open_index + 1
        let inner_end := close_index
        let close_span := ((buf.get? close_index).map (·.span)).getD Span.call_site
        .ok (c₂, ⟨inner_start, inner_start, inner_end, inner_start⟩,
          Span.new first_span.start close_span.stop)
      | (_, none) => .error (.empty closeFmt)
    else .error (.expected openFmt tok.value)
  | (_, none) => .error (.empty openFmt)

lemma nextLoop_succ (isSkip : Tok → Bool) (buf : List (Spanned Tok)) (n : Nat) (c : Cursors) :
    nextLoop isSkip buf (n + 1) c =
      (match next_raw buf c with
      | (c', none) => (c', none)
      | (c', some tok) =>
        if isSkip tok.value then nextLoop isSkip buf n c' else (c', some tok)) := rfl

lemma scanLoop_succ (isOpen isClose : Tok → Bool) (buf : List (Spanned Tok)) (n : Nat)
    (c : Cursors) (depth : Nat) :
    scanLoop isOpen isClose buf (n + 1) c depth =
      (match next_raw buf c with
      | (c', none) => (c', none)
      | (c', some tok) =>
        if isOpen tok.value then scanLoop isOpen isClose buf n c' (depth + 1)
        else if isClose tok.value then
          if depth - 1 = 0 then (c', some c'.cursor)
          else scanLoop isOpen isClose buf n c' (depth - 1)
        else scanLoop isOpen isClose buf n c' depth) := rfl

lemma matchingCloseLoop_succ (isOpen isClose : Tok → Bool) (buf : List (Spanned Tok))
    (n stop i depth : Nat) :
    matchingCloseLoop isOpen isClose buf (n + 1) stop i depth =
      (if stop ≤ i then none
      else
        match buf.get? i with
        | none => none
        | some t =>
          if isOpen t.value then matchingCloseLoop isOpen isClose buf n stop (i + 1) (depth + 1)
          else if isClose t.value then
            if depth = 1 then some i
            else matchingCloseLoop isOpen isClose buf n stop (i + 1) (depth - 1)
          else matchingCloseLoop isOpen isClose buf n stop (i + 1) depth) := rfl

lemma next_raw_some_eq (buf : List (Spanned Tok)) (c c' : Cursors) (tok : Spanned Tok)
    (h : next_raw buf c = (c', some tok)) :
    c' = { c with last_cursor := c.cursor, cursor := c.cursor + 1 } ∧
      buf.get? c.cursor = some tok ∧ c.cursor < c.range_end := by
  unfold next_raw at h
  split at h
  · cases h
  · split at h
    · next heq =>
      obtain ⟨h1, h2⟩ := Prod.mk.injEq .. ▸ h
      exact ⟨h1.symm, by rw [heq, Option.some.inj h2], by omega⟩
    · cases h

lemma next_raw_none_cursor (buf : List (Spanned Tok)) (c : Cursors) (c' : Cursors)
    (h : next_raw buf c = (c', none)) : c' = c := by
  unfold next_raw at h
  split at h
  · exact (Prod.mk.injEq .. ▸ h).1.symm
  · split at h
    · cases (Prod.mk.injEq .. ▸ h).2
    · exact (Prod.mk.injEq .. ▸ h).1.symm

lemma nextLoop_some_facts (isSkip : Tok → Bool) (buf : List (Spanned Tok)) :
    ∀ (fuel : Nat) (c c' : Cursors) (tok : Spanned Tok),
      nextLoop isSkip buf fuel c = (c', some tok) →
      c'.range_start = c.range_start ∧ c'.range_end = c.range_end ∧
        1 ≤ c'.cursor ∧ buf.get? (c'.cursor - 1) = some tok ∧
        c'.cursor ≤ c'.range_end ∧ c.cursor < c'.cursor ∧
        isSkip tok.value = false := by
  intro fuel
  induction fuel with
  | zero => intro c c' tok h; cases (Prod.mk.injEq .. ▸ h).2
  | succ n ih =>
    intro c c' tok h
    rw [nextLoop_succ] at h
    split at h
    · cases (Prod.mk.injEq .. ▸ h).2
    · next c₁ t heq =>
      obtain ⟨hc₁, hget, hlt⟩ := next_raw_some_eq buf c c₁ t heq
      by_cases hskip : isSkip t.value
      · rw [if_pos hskip] at h
        have := ih c₁ c' tok h
        refine ⟨?_, ?_, this.2.2.1, this.2.2.2.1, this.2.2.2.2.1, ?_, this.2.2.2.2.2.2⟩
        · rw [this.1, hc₁]
        · rw [this.2.1, hc₁]
        · have := this.2.2.2.2.2.1
          rw [hc₁] at this
          simp at this
          omega
      · rw [if_neg hskip] at h
        obtain ⟨h1, h2⟩ := Prod.mk.injEq .. ▸ h
        subst h1
        cases Option.some.inj h2
        rw [hc₁]
        refine ⟨rfl, rfl, by simp, ?_, ?_, by simp, by simpa using hskip⟩
        · simpa using hget
        · simp
          omega

lemma next_some_facts (isSkip : Tok → Bool) (buf : List (Spanned Tok)) (c c' : Cursors)
    (tok : Spanned Tok) (h : next isSkip buf c = (c', some tok)) :
    c'.range_start = c.range_start ∧ c'.range_end = c.range_end ∧
      1 ≤ c'.cursor ∧ buf.get? (c'.cursor - 1) = some tok ∧
      c'.cursor ≤ c'.range_end ∧ c.cursor < c'.cursor ∧ isSkip tok.value = false :=
  nextLoop_some_facts isSkip buf _ c c' tok h

lemma scanLoop_matching (isOpen isClose : Tok → Bool) (buf : List (Spanned Tok)) :
    ∀ (fuel : Nat) (c : Cursors) (depth : Nat), 1 ≤ depth →
      (∀ cl, matchingCloseLoop isOpen isClose buf fuel c.range_end c.cursor depth = some cl →
        scanLoop isOpen isClose buf fuel c depth =
          ({ c with cursor := cl + 1, last_cursor := cl }, some (cl + 1))) ∧
      (matchingCloseLoop isOpen isClose buf fuel c.range_end c.cursor depth = none →
        (scanLoop isOpen isClose buf fuel c depth).2 = none) := by
  intro fuel
  induction fuel with
  | zero =>
    intro c depth _
    exact ⟨(fun cl h => by cases h), (fun _ => rfl)⟩
  | succ n ih =>
    intro c depth hdep
    by_cases hend : c.range_end ≤ c.cursor
    · have hm : matchingCloseLoop isOpen isClose buf (n + 1) c.range_end c.cursor depth
          = none := by
        rw [matchingCloseLoop_succ, if_pos hend]
      have hs : scanLoop isOpen isClose buf (n + 1) c depth = (c, none) := by
        have hraw : next_raw buf c = (c, none) := by
          unfold next_raw
          rw [if_pos hend]
        rw [scanLoop_succ, hraw]
      exact ⟨(fun cl h => by rw [hm] at h; exact absurd h (by simp)),
        (fun _ => by rw [hs])⟩
    · rcases hget : buf.get? c.cursor with _ | t
      · have hm : matchingCloseLoop isOpen isClose buf (n + 1) c.range_end c.cursor depth
            = none := by
          rw [matchingCloseLoop_succ, if_neg hend, hget]
        have hs : scanLoop isOpen isClose buf (n + 1) c depth = (c, none) := by
          have hraw : next_raw buf c = (c, none) := by
            unfold next_raw
            rw [if_neg hend, hget]
          rw [scanLoop_succ, hraw]
        exact ⟨(fun cl h => by rw [hm] at h; exact absurd h (by simp)),
          (fun _ => by rw [hs])⟩
      · have hm : matchingCloseLoop isOpen isClose buf (n + 1) c.range_end c.cursor depth
            = (if isOpen t.value then
                matchingCloseLoop isOpen isClose buf n c.range_end (c.cursor + 1) (depth + 1)
              else if isClose t.value then
                if depth = 1 then some c.cursor
                else matchingCloseLoop isOpen isClose buf n c.range_end (c.cursor + 1) (depth - 1)
              else matchingCloseLoop isOpen isClose buf n c.range_end (c.cursor + 1) depth) := by
          rw [matchingCloseLoop_succ, if_neg hend, hget]
        have hraw : next_raw buf c
            = ({ c with last_cursor := c.cursor, cursor := c.cursor + 1 }, some t) := by
          unfold next_raw
          rw [if_neg hend, hget]
        have hs : scanLoop isOpen isClose buf (n + 1) c depth
            = (if isOpen t.value then
                scanLoop isOpen isClose buf n
                  { c with last_cursor := c.cursor, cursor := c.cursor + 1 } (depth + 1)
              else if isClose t.value then
                if depth - 1 = 0 then
                  ({ c with last_cursor := c.cursor, cursor := c.cursor + 1 }, some (c.cursor + 1))
                else scanLoop isOpen isClose buf n
                  { c with last_cursor := c.cursor, cursor := c.cursor + 1 } (depth - 1)
              else scanLoop isOpen isClose buf n
                { c with last_cursor := c.cursor, cursor := c.cursor + 1 } depth) := by
          rw [scanLoop_succ, hraw]
        rw [hm, hs]
        by_cases hopen : isOpen t.value
        · rw [if_pos hopen, if_pos hopen]
          have := ih { c with last_cursor := c.cursor, cursor := c.cursor + 1 } (depth + 1)
            (by omega)
          exact this
        · rw [if_neg hopen, if_neg hopen]
          by_cases hclose : isClose t.value
          · rw [if_pos hclose, if_pos hclose]
            by_cases h1 : depth = 1
            · rw [if_pos h1, if_pos (by omega)]
              refine ⟨fun cl h => ?_, fun h => by exact absurd h (by simp)⟩
              cases Option.some.inj h
              rfl
            · rw [if_neg h1, if_neg (by omega)]
              exact ih { c with last_cursor := c.cursor, cursor := c.cursor + 1 } (depth - 1)
                (by omega)
          · rw [if_neg hclose, if_neg hclose]
            exact ih { c with last_cursor := c.cursor, cursor := c.cursor + 1 } depth hdep

lemma matchingCloseLoop_some_get (isOpen isClose : Tok → Bool) (buf : List (Spanned Tok)) :
    ∀ (fuel stop i depth cl : Nat),
      matchingCloseLoop isOpen isClose buf fuel stop i depth = some cl →
      ∃ t, buf.get? cl = some t ∧ isClose t.value = true ∧ i ≤ cl ∧ cl < stop := by
  intro fuel
  induction fuel with
  | zero => intro _ _ _ _ h; cases h
  | succ n ih =>
    intro stop i depth cl h
    rw [matchingCloseLoop_succ] at h
    split at h
    · cases h
    · split at h
      · cases h
      · next t hget =>
        split at h
        · obtain ⟨t', ht', hc, hle, hlt⟩ := ih stop (i + 1) (depth + 1) cl h
          exact ⟨t', ht', hc, by omega, hlt⟩
        · split at h
          · split at h
            · cases Option.some.inj h
              refine ⟨t, hget, ?_, Nat.le_refl _, by omega⟩
              assumption
            · obtain ⟨t', ht', hc, hle, hlt⟩ := ih stop (i + 1) (depth - 1) cl h
              exact ⟨t', ht', hc, by omega, hlt⟩
          · obtain ⟨t', ht', hc, hle, hlt⟩ := ih stop (i + 1) depth cl h
            exact ⟨t', ht', hc, by omega, hlt⟩

/-- C2. When the next significant token matches `Open`, `extract_inner`
consumes it (it sits at `open_index = c₁.cursor - 1`), raw-scans with a
depth counter (+1 per `Open`, −1 per `Close`); if the counter returns to 0
at a `Close` of index `cl`, it returns, over the same shared buffer, the
interior sub-stream with range `[open_index + 1, cl)`, the covering span
`[open_span.start, close_span.end]`, and the parent stream with its cursor
one past the `Close`; if the scan exhausts the range first, it fails with
the expected-`Close` (`Empty`) error. -/
theorem extract_inner_spec (Tok : Type) (isSkip isOpen isClose : Tok → Bool)
    (oF cF : String) (buf : List (Spanned Tok)) (c c₁ : Cursors) (tok : Spanned Tok)
    (hnext : next isSkip buf c = (c₁, some tok))
    (hopen : isOpen tok.value = true) :
    buf.get? (c₁.cursor - 1) = some tok ∧
    (∀ cl, matching_close isOpen isClose buf c₁.range_end c₁.cursor 1 = some cl →
      ∃ closeTok, buf.get? cl = some closeTok ∧ isClose closeTok.value = true ∧
        extract_inner isSkip isOpen isClose oF cF buf c =
          .ok ({ c₁ with cursor := cl + 1, last_cursor := cl },
            ⟨c₁.cursor, c₁.cursor, cl, c₁.cursor⟩,
            Span.new tok.span.start closeTok.span.stop)) ∧
    (matching_close isOpen isClose buf c₁.range_end c₁.cursor 1 = none →
      extract_inner isSkip isOpen isClose oF cF buf c = .error (.empty cF)) := by
  obtain ⟨hrs, hre, hc1, hget1, hcre, hclt, hnskip⟩ := next_some_facts isSkip buf c c₁ tok hnext
  have hbase : extract_inner isSkip isOpen isClose oF cF buf c =
      (if isOpen tok.value then
        match scanToClose isOpen isClose buf c₁ 1 with
        | (c₂, some endPos) =>
          Except.ok (c₂,
            (⟨c₁.cursor - 1 + 1, c₁.cursor - 1 + 1, endPos - 1, c₁.cursor - 1 + 1⟩ : Cursors),
            Span.new tok.span.start
              (((buf.get? (endPos - 1)).map (·.span)).getD Span.call_site).stop)
        | (_, none) => Except.error (.empty cF)
      else Except.error (.expected oF tok.value)) := by
    unfold extract_inner
    rw [hnext]
  refine ⟨hget1, ?_, ?_⟩
  · intro cl hm
    obtain ⟨closeTok, hgetc, hisc, -, -⟩ :=
      matchingCloseLoop_some_get isOpen isClose buf _ _ _ _ cl hm
    refine ⟨closeTok, hgetc, hisc, ?_⟩
    have hscan : scanToClose isOpen isClose buf c₁ 1 =
        ({ c₁ with cursor := cl + 1, last_cursor := cl }, some (cl + 1)) :=
      (scanLoop_matching isOpen isClose buf _ c₁ 1 (Nat.le_refl 1)).1 cl hm
    rw [hbase, if_pos hopen, hscan]
    have hcc : c₁.cursor - 1 + 1 = c₁.cursor := by omega
    simp only [hcc, Nat.add_sub_cancel, hgetc, Option.map_some', Option.getD_some]
  · intro hm
    have hscan : (scanToClose isOpen isClose buf c₁ 1).2 = none :=
      (scanLoop_matching isOpen isClose buf _ c₁ 1 (Nat.le_refl 1)).2 hm
    rw [hbase, if_pos hopen]
    rcases hsc : scanToClose isOpen isClose buf c₁ 1 with ⟨c₂, r⟩
    rw [hsc] at hscan
    simp at hscan
    subst hscan
    rfl

/-- The JSONL skip set (`skip_tokens: [Space, Tab]`). -/
def jsonSkip : Token → Bool
  | .space | .tab => Bool.true
  | _ => Bool.false

def isLBracketTok : Token → Bool
  | .lbracket => Bool.true
  | _ => Bool.false

def isRBracketTok : Token → Bool
  | .rbracket => Bool.true
  | _ => Bool.false

/-- Tokens of `" [1]"` with a leading skip-set space. -/
def c2Buf : List (Spanned Token) :=
  [⟨Span.new 0 1, .space⟩, ⟨Span.new 1 2, .lbracket⟩,
   ⟨Span.new 2 3, .number "1"⟩, ⟨Span.new 3 4, .rbracket⟩]

/-- Witness for C2: extracting `[...]` from the tokens of `" [1]"` yields the
interior sub-stream `[2, 3)`, the covering span `[1, 4]`, and the parent
cursor one past the `]`. -/
theorem extract_inner_spec_witness :
    extract_inner jsonSkip isLBracketTok isRBracketTok "[" "]" c2Buf (from_tokens c2Buf) =
      .ok (⟨4, 0, 4, 3⟩, ⟨2, 2, 3, 2⟩, Span.new 1 4) := by
  obtain ⟨closeTok, hget, hc, heq⟩ :=
    (extract_inner_spec Token jsonSkip isLBracketTok isRBracketTok "[" "]" c2Buf
      (from_tokens c2Buf) ⟨2, 0, 4, 1⟩ ⟨Span.new 1 2, .lbracket⟩
      (by decide) (by decide)).2.1 3 (by decide)
  have h2 : c2Buf.get? 3 = some ⟨Span.new 3 4, .rbracket⟩ := by decide
  rw [hget] at h2
  cases Option.some.inj h2
  exact heq

/-! ### The streaming parser task (`AstStream`, src/core/src/async_stream.rs)

The parser task receives tokens one at a time from the token channel and is
modelled as a function of the (finite) list of tokens the channel delivers
before closing.  Sends on the AST channel are modelled as always succeeding
(the consumer keeps its end open); the emitted nodes are collected in a
list.  `try_parse`'s inner loop is written with fuel: the wrapper passes
`token_buffer.length + 1` units, which suffices for any `parse_incremental`
whose returned cursor advances and stays within the buffer. -/

structure ParseCheckpoint where
  cursor : Nat
  tokens_consumed : Nat
  state : Nat
deriving DecidableEq, Repr

/-- `StreamError` of the async streaming module. -/
inductive StreamError where
  | channelClosed
  | lexError (msg : String)
  | parseError (msg : String)
  | incompleteInput
  | chunkTooLarge (size max : Nat)
  | bufferOverflow (current max : Nat)
  | timeout
  | resourceLimit (resource : String) (current max : Nat)
deriving DecidableEq, Repr

structure LexerCapacityHint where
  buffer_capacity : Nat
  tokens_per_chunk : Nat
deriving DecidableEq, Repr

structure StreamConfig where
  token_buffer_size : Nat
  ast_buffer_size : Nat
  max_chunk_size : Nat
  lexer_hint : LexerCapacityHint
deriving DecidableEq, Repr

/-- `StreamConfig::default()`. -/
def StreamConfig.defaultConfig : StreamConfig :=
  ⟨1024, 64, 64 * 1024, ⟨4096, 256⟩⟩

/-- The two operations of the `IncrementalParse` trait. -/
structure IncrementalParseImpl (Tok T E : Type) where
  parse_incremental : List Tok → ParseCheckpoint → Except E (Option T × ParseCheckpoint)
  can_parse : List Tok → ParseCheckpoint → Bool

structure AstStreamState (Tok T : Type) where
  token_buffer : List Tok
  checkpoint : ParseCheckpoint
deriving DecidableEq, Repr

/-- The loop of `AstStream::try_parse`: call `parse_incremental` repeatedly,
emitting nodes and adopting the new checkpoint, until it yields `None`.
The checkpoint returned alongside `None` is discarded (`Ok((None, _)) =>
break` in the source). -/
def tryParseLoop (P : IncrementalParseImpl Tok T E) (errStr : E → String) :
    Nat → AstStreamState Tok T → Except StreamError (AstStreamState Tok T × List T)
  | 0, st => .ok (st, [])
  | fuel + 1, st =>
    match P.parse_incremental st.token_buffer st.checkpoint with
    | .ok (some node, ncp) =>
      match tryParseLoop P errStr fuel { st with checkpoint := ncp } with
      | .ok (st', nodes) => .ok (st', node :: nodes)
      | .error e => .error e
    | .ok (none, _) => .ok (st, [])
    | .error e => .error (.parseError (errStr e))

/-- `AstStream::compact_buffer`. -/
def compact_buffer (st : AstStreamState Tok T) : AstStreamState Tok T :=
  let consumed := st.checkpoint.tokens_consumed
  if 0 < consumed then
    { token_buffer := st.token_buffer.drop consumed,
      checkpoint := ⟨st.checkpoint.cursor - consumed, 0, st.checkpoint.state⟩ }
  else st

/-- `AstStream::try_parse`: drain the parse loop, then compact when more than
`token_buffer_size / 2` tokens have been consumed. -/
def try_parse (P : IncrementalParseImpl Tok T E) (errStr : E → String) (cfg : StreamConfig)
    (st : AstStreamState Tok T) : Except StreamError (AstStreamState Tok T × List T) :=
  match tryParseLoop P errStr (st.token_buffer.length + 1) st with
  | .ok (st', nodes) =>
    if cfg.token_buffer_size / 2 < st'.checkpoint.tokens_consumed then
      .ok (compact_buffer st', nodes)
    else .ok (st', nodes)
  | .error e => .error e

/-- The receive loop of `AstStream::run`.  On a received token: reject it
with `BufferOverflow` if the buffer already holds `2 × token_buffer_size`
tokens, else append it and, when `can_parse`, run `try_parse`.  On channel
closure: one final `try_parse`, then `IncompleteInput` if the checkpoint has
not consumed the whole buffer. -/
def runLoop (P : IncrementalParseImpl Tok T E) (errStr : E → String) (cfg : StreamConfig) :
    List Tok → AstStreamState Tok T → Except StreamError (List T)
  | [], st =>
    match try_parse P errStr cfg st with
    | .ok (st', nodes) =>
      if st'.token_buffer.isEmpty = Bool.false ∧
          st'.checkpoint.cursor < st'.token_buffer.length then
        .error .incompleteInput
      else .ok nodes
    | .error e => .error e
  | t :: rest, st =>
    if cfg.token_buffer_size * 2 ≤ st.token_buffer.length then
      .error (.bufferOverflow st.token_buffer.length (cfg.token_buffer_size * 2))
    else
      let st₁ : AstStreamState Tok T := { st with token_buffer := st.token_buffer ++ [t] }
      if P.can_parse st₁.token_buffer st₁.checkpoint then
        match try_parse P errStr cfg st₁ with
        | .ok (st', nodes) =>
          match runLoop P errStr cfg rest st' with
          | .ok more => .ok (nodes ++ more)
          | .error e => .error e
        | .error e => .error e
      else runLoop P errStr cfg rest st₁

/-- `AstStream::run` from the initial state (empty buffer, default
checkpoint), over the full channel contents. -/
def runAst (P : IncrementalParseImpl Tok T E) (errStr : E → String) (cfg : StreamConfig)
    (incoming : List Tok) : Except StreamError (List T) :=
  runLoop P errStr cfg incoming ⟨[], ⟨0, 0, 0⟩⟩

/-! The `IncrementalParse` implementation of the JSONL example
(src/examples/jsonl-parser/src/incremental.rs), parameterised by the chunk
parser `JsonLine::parse_chunk` (whose internals none of the claims here
exercise: the relevant traces never reach it or do not depend on it). -/

/-- `JsonLine::is_complete_at_eof`. -/
def is_complete_at_eof (tokens : List Token) : Bool :=
  let p := tokens.foldl
    (fun (p : Int × Bool) t =>
      match t with
      | .lbrace | .lbracket => (p.1 + 1, Bool.true)
      | .rbrace | .rbracket => (p.1 - 1, p.2)
      | .null | .true | .false | .number _ | .string _ => (p.1, Bool.true)
      | _ => p)
    ((0 : Int), Bool.false)
  p.2 && decide (p.1 = 0)

/-- The `has_content` test of `JsonLine::parse_incremental`. -/
def jsonHasContent (chunk : List Token) : Bool :=
  chunk.any fun t =>
    !(match t with | .space | .tab | .newline => Bool.true | _ => Bool.false)

/-- `JsonLine::parse_incremental`. -/
def jsonParseIncremental {T E : Type} (parse_chunk : List Token → Except E T)
    (tokens : List Token) (cp : ParseCheckpoint) :
    Except E (Option T × ParseCheckpoint) :=
  let start := cp.cursor
  if tokens.length ≤ start then .ok (none, cp)
  else
    let remaining := tokens.drop start
    let boundary? : Option Nat :=
      match find_boundary jsonCB remaining 0 with
      | some b => some b
      | none => if is_complete_at_eof remaining then some remaining.length else none
    match boundary? with
    | none => .ok (none, cp)
    | some boundary =>
      let chunk_end :=
        if 0 < boundary ∧
            Option.any (fun t => t == Token.newline) (remaining.get? (boundary - 1)) = Bool.true
        then boundary - 1
        else boundary
      let chunk := remaining.take chunk_end
      if !jsonHasContent chunk then
        .ok (none, ⟨start + boundary, start + boundary, 0⟩)
      else
        match parse_chunk chunk with
        | .ok line => .ok (some line, ⟨start + boundary, start + boundary, 0⟩)
        | .error e => .error e

/-- `JsonLine::can_parse`. -/
def jsonCanParse (tokens : List Token) (cp : ParseCheckpoint) : Bool :=
  if tokens.length ≤ cp.cursor then Bool.false
  else has_complete_chunk jsonCB (tokens.drop cp.cursor) 0

def jsonImpl {T E : Type} (parse_chunk : List Token → Except E T) :
    IncrementalParseImpl Token T E :=
  ⟨jsonParseIncremental parse_chunk, jsonCanParse⟩

lemma runLoop_cons (P : IncrementalParseImpl Tok T E) (errStr : E → String)
    (cfg : StreamConfig) (t : Tok) (rest : List Tok) (st : AstStreamState Tok T) :
    runLoop P errStr cfg (t :: rest) st =
      (if cfg.token_buffer_size * 2 ≤ st.token_buffer.length then
        .error (.bufferOverflow st.token_buffer.length (cfg.token_buffer_size * 2))
      else
        let st₁ : AstStreamState Tok T := { st with token_buffer := st.token_buffer ++ [t] }
        if P.can_parse st₁.token_buffer st₁.checkpoint then
          match try_parse P errStr cfg st₁ with
          | .ok (st', nodes) =>
            match runLoop P errStr cfg rest st' with
            | .ok more => .ok (nodes ++ more)
            | .error e => .error e
          | .error e => .error e
        else runLoop P errStr cfg rest st₁) := rfl

/-- C3 amended.  The parser task rejects an arriving token with
`BufferOverflow{current, max}` as soon as the internal buffer already holds
`2 × token_buffer_size` tokens, with `current` the buffer length at the
moment of the check (the token is rejected before being appended); with
`token_buffer_size = 4` and an input of 10 tokens carrying no boundary, the
task terminates with `BufferOverflow{current = 8, max = 8}` on the 9th
token. -/
theorem buffer_overflow_threshold :
    (∀ (Tok T E : Type) (P : IncrementalParseImpl Tok T E) (errStr : E → String)
      (cfg : StreamConfig) (t : Tok) (rest : List Tok) (st : AstStreamState Tok T),
      cfg.token_buffer_size * 2 ≤ st.token_buffer.length →
      runLoop P errStr cfg (t :: rest) st =
        .error (.bufferOverflow st.token_buffer.length (cfg.token_buffer_size * 2))) ∧
    runAst (jsonImpl (T := Unit) (E := Unit) (fun _ => .error ())) (fun _ => "parse error")
      ⟨4, 16, 4096, ⟨256, 32⟩⟩ (List.replicate 10 Token.space) =
      .error (.bufferOverflow 8 8) := by
  constructor
  · intro Tok T E P errStr cfg t rest st h
    rw [runLoop_cons, if_pos h]
  · rfl

/-- Witness for the amended C3 at a concrete full buffer (8 tokens, limit
`2 × 4`) receiving one more token. -/
theorem buffer_overflow_threshold_witness :
    runLoop (jsonImpl (T := Unit) (E := Unit) (fun _ => .error ())) (fun _ => "parse error")
      ⟨4, 16, 4096, ⟨256, 32⟩⟩ [Token.space] ⟨List.replicate 8 Token.space, ⟨0, 0, 0⟩⟩ =
      .error (.bufferOverflow 8 8) :=
  buffer_overflow_threshold.1 Token Unit Unit (jsonImpl (fun _ => .error ()))
    (fun _ => "parse error") ⟨4, 16, 4096, ⟨256, 32⟩⟩ Token.space []
    ⟨List.replicate 8 Token.space, ⟨0, 0, 0⟩⟩ (by decide)

/-- Counterexample to C3 as stated: on the S4 scenario (`token_buffer_size =
4`, 10 boundary-free tokens) the task fails with `BufferOverflow{current = 8,
max = 8}` — the capacity check runs before the push, while the buffer holds
8 tokens — not with `current = 9` as the claim states. -/
theorem buffer_overflow_cex :
    runAst (jsonImpl (T := Unit) (E := Unit) (fun _ => .error ())) (fun _ => "parse error")
      ⟨4, 16, 4096, ⟨256, 32⟩⟩ (List.replicate 10 Token.space) =
      .error (.bufferOverflow 8 8) ∧
    StreamError.bufferOverflow 8 8 ≠ StreamError.bufferOverflow 9 8 :=
  ⟨rfl, by decide⟩

/-- C4 evaluated at the failing input: the token channel delivers the single
token stream of the source `"\n"` (one `Newline`, an empty line, for which
`parse_incremental` returns `(None, advanced_checkpoint)` per step 5 of the
protocol — second conjunct) and closes; `AstStream::try_parse` discards the
advanced checkpoint (`Ok((None, _)) => break`), so the final drain sees
`cursor < buffer length` and the task fails with `IncompleteInput`, although
only an ignorable empty unit remains. -/
theorem incomplete_input_on_empty_line :
    runAst (jsonImpl (T := Unit) (E := Unit) (fun _ => .error ())) (fun _ => "parse error")
      StreamConfig.defaultConfig [Token.newline] = .error .incompleteInput ∧
    jsonParseIncremental (T := Unit) (E := Unit) (fun _ => .error ())
      [Token.newline] ⟨0, 0, 0⟩ = .ok (none, ⟨1, 1, 0⟩) :=
  ⟨rfl, rfl⟩

end Synkit
